import Mathlib

/-!
Verification development for `SpeerAssessment.py`, a small breadth-first
Wikipedia crawler.  The Python source is shallowly embedded below:

* `urlparseE` models CPython 3.10's `urllib.parse.urlparse` (the annotation
  `list[str]` in the source requires Python ≥ 3.9; we follow the 3.10.x
  maintenance branch, which lstrips WHATWG C0-control/space characters,
  removes tab/CR/LF bytes, and raises `ValueError("Invalid IPv6 URL")` on a
  mismatched square bracket in the authority).  The `ValueError` is modelled
  by returning `Except.error`.
* `WIKI_PATH_RE_match` gives the semantics of `re.match` with the source's
  pattern `^/wiki/[^:#]+$`.  (Python's `$` also matches just before a trailing
  newline; since `\n` is itself matched by `[^:#]`, that alternative never
  changes the verdict, so plain end-of-string is an exact model.)
* `urljoin_wiki` models `urllib.parse.urljoin(WIKI_BASE, href)` at its single
  call site, where `href` has already matched `WIKI_PATH_RE` (hence has no
  scheme, no authority and no fragment): query/params splitting, RFC-3986
  dot-segment resolution, and reassembly by `urlunparse`/`urlunsplit`.
* `extract_wiki_links` works on the document-order list of `href` attribute
  values of the page's `<a href=...>` elements; HTML parsing itself
  (BeautifulSoup) is an external collaborator and is abstracted to that list.
* `crawl` is the BFS loop; the network is a parameter
  `web : String → Option (List String)` mapping a URL to the href list of the
  fetched page (`none` = `requests` failure / non-2xx status).  The unbounded
  `while queue:` loop is embedded with explicit fuel; `crawlFuel` is proved
  sufficient below, so the fuel never runs out.
* `crawlRun` is the same loop instrumented with ghost observations (the BFS
  level of every recorded link, the fetch log, and the warning log); it is
  proved to project onto `crawl`.
-/

/-! ## CPython `urllib.parse` model -/

/-- WHATWG "C0 control or space" characters, lstripped by CPython `urlsplit`. -/
def c0OrSpace (c : Char) : Bool := c.toNat ≤ 32

/-- CPython `_UNSAFE_URL_BYTES_TO_REMOVE = ["\t", "\r", "\n"]` removal. -/
def removeUnsafeBytes (l : List Char) : List Char :=
  l.filter (fun c => !(c = '\t' || c = '\r' || c = '\n'))

/-- The input cleanup performed at the top of CPython `urlsplit`. -/
def cleanUrl (l : List Char) : List Char := removeUnsafeBytes (l.dropWhile c0OrSpace)

/-- CPython `scheme_chars`: letters, digits and `+`, `-`, `.`. -/
def schemeChar (c : Char) : Bool := c.isAlpha || c.isDigit || c = '+' || c = '-' || c = '.'

/-- `url.split(c, 1)`: split at the first occurrence of `c` (the delimiter is
dropped); when `c` does not occur this returns `(l, [])`, which coincides with
CPython's "leave the remainder unchanged" branches. -/
def splitAtFirst (c : Char) : List Char → List Char × List Char
  | [] => ([], [])
  | x :: xs =>
    if x = c then ([], xs)
    else
      let p := splitAtFirst c xs
      (x :: p.1, p.2)

/-- CPython `_splitnetloc` (after the leading `//`): the netloc extends to the
first `/`, `?` or `#`, which stays in the remainder. -/
def splitNetlocAux : List Char → List Char × List Char
  | [] => ([], [])
  | x :: xs =>
    if x = '/' || x = '?' || x = '#' then ([], x :: xs)
    else
      let p := splitNetlocAux xs
      (x :: p.1, p.2)

/-- The scheme detection of CPython 3.10 `urlsplit`: a scheme is split off iff
the first `:` occurs at a positive index and everything before it consists of
`scheme_chars`; the scheme is lowercased. -/
def splitScheme (l : List Char) : List Char × List Char :=
  match l.findIdx? (fun c => c = ':') with
  | none => ([], l)
  | some i =>
    if 0 < i then
      if (l.take i).all schemeChar then ((l.take i).map Char.toLower, l.drop (i + 1))
      else ([], l)
    else ([], l)

/-- Index of the last occurrence of `c` (Python `str.rfind`), when present. -/
def rfindIdx (c : Char) (l : List Char) : Option Nat :=
  match l.reverse.findIdx? (fun x => x = c) with
  | none => none
  | some rj => some (l.length - 1 - rj)

/-- CPython `urllib.parse._splitparams`: split `;params` off the last path
segment only. -/
def splitparams (l : List Char) : List Char × List Char :=
  if '/' ∈ l then
    match rfindIdx '/' l with
    | none => (l, [])
    | some r =>
      match (l.drop r).findIdx? (fun x => x = ';') with
      | none => (l, [])
      | some j => (l.take (r + j), l.drop (r + j + 1))
  else splitAtFirst ';' l

/-- CPython `uses_params`: schemes for which `urlparse` splits path parameters. -/
def usesParams : List String :=
  ["", "ftp", "hdl", "prospero", "http", "imap", "https", "shttp", "rtsp", "rtspu",
   "sip", "sips", "mms", "sftp", "tel"]

/-- The six components of CPython `ParseResult`. -/
structure ParseResult where
  scheme : String
  netloc : String
  path : String
  params : String
  query : String
  fragment : String
deriving DecidableEq

/-- CPython 3.10 `urllib.parse.urlparse(url)` (with `allow_fragments=True`).
The `ValueError("Invalid IPv6 URL")` raised on a mismatched `[`/`]` in the
authority is modelled as `Except.error`. -/
def urlparseE (url : String) : Except String ParseResult :=
  let l0 := cleanUrl url.data
  let ps := splitScheme l0
  let scheme := ps.1
  let nl :=
    if ps.2.take 2 = ['/', '/'] then splitNetlocAux (ps.2.drop 2)
    else ([], ps.2)
  let netloc := nl.1
  if ('[' ∈ netloc ∧ ']' ∉ netloc) ∨ (']' ∈ netloc ∧ '[' ∉ netloc) then
    .error "Invalid IPv6 URL"
  else
    let f := splitAtFirst '#' nl.2
    let q := splitAtFirst '?' f.1
    let pp :=
      if String.mk scheme ∈ usesParams ∧ ';' ∈ q.1 then splitparams q.1
      else (q.1, [])
    .ok ⟨String.mk scheme, String.mk netloc, String.mk pp.1, String.mk pp.2,
         String.mk q.2, String.mk f.2⟩

/-! ## The source's URL validator and link extractor -/

/-- Semantics of `WIKI_PATH_RE.match(s)` for `WIKI_PATH_RE =
re.compile(r"^/wiki/[^:#]+$")`, on the character list. -/
def wikiPathMatchL (l : List Char) : Bool :=
  decide (l.take 6 = ['/', 'w', 'i', 'k', 'i', '/']) && decide (l.drop 6 ≠ []) &&
    (l.drop 6).all (fun c => !(c = ':' || c = '#'))

/-- `WIKI_PATH_RE.match(s)` as a Bool (a `re.Match` is truthy). -/
def WIKI_PATH_RE_match (s : String) : Bool := wikiPathMatchL s.data

/-- Python `s.endswith(suffix)`. -/
def endswith (s suffix : String) : Bool := suffix.data.isSuffixOf s.data

/-- `is_valid_wiki_url` from the source:
`parsed.scheme in ("http", "https") and parsed.netloc.endswith("wikipedia.org")
and WIKI_PATH_RE.match(parsed.path or "")`.  A `ValueError` escaping from
`urlparse` propagates (there is no try/except), hence the `Except`.
(`parsed.path` is always a `str`, so `parsed.path or ""` is the identity.) -/
def is_valid_wiki_url (url : String) : Except String Bool :=
  match urlparseE url with
  | .error e => .error e
  | .ok parsed =>
    .ok ((decide (parsed.scheme = "http") || decide (parsed.scheme = "https")) &&
      endswith parsed.netloc "wikipedia.org" && WIKI_PATH_RE_match parsed.path)

/-- Python `str.split(c)` (unlimited splits; `"".split(c) = [""]`). -/
def splitOnChar (c : Char) : List Char → List (List Char)
  | [] => [[]]
  | x :: xs =>
    match splitOnChar c xs with
    | [] => [[]]
    | s :: ss => if x = c then [] :: s :: ss else (x :: s) :: ss

/-- The dot-segment resolution loop of CPython `urljoin` (`..` pops the
accumulated path, `.` is skipped). -/
def resolveDots : List (List Char) → List (List Char) → List (List Char)
  | [], acc => acc
  | seg :: rest, acc =>
    if seg = ['.', '.'] then resolveDots rest acc.dropLast
    else if seg = ['.'] then resolveDots rest acc
    else resolveDots rest (acc ++ [seg])

/-- The source's constant `WIKI_BASE`. -/
def WIKI_BASE : String := "https://en.wikipedia.org"

/-- CPython `urljoin(WIKI_BASE, href)` at the source's single call site, where
`href` has already matched `WIKI_PATH_RE` and therefore carries no scheme, no
authority and no fragment, and starts with `/`:  `urlparse(href, "https")`
yields scheme `https`, empty netloc, and splits query (at the first `?`) and
params (from the last segment; `https` is in `uses_params`); the absolute path
is split on `/`, dot segments are resolved, and `urlunparse` reassembles
`"https" + "://" + "en.wikipedia.org"` (the base's scheme and netloc, the base
path being empty) with the resolved path, `;params` and `?query`. -/
def urljoin_wiki (href : String) : String :=
  let l := cleanUrl href.data
  let q := splitAtFirst '?' l
  let pp := if ';' ∈ q.1 then splitparams q.1 else (q.1, [])
  let segments := splitOnChar '/' pp.1
  let res0 := resolveDots segments []
  let res :=
    if segments.getLast? = some ['.'] ∨ segments.getLast? = some ['.', '.'] then
      res0 ++ [([] : List Char)]
    else res0
  let joined0 := List.intercalate ['/'] res
  let joined := if joined0 = [] then ['/'] else joined0
  let wparams := if pp.2 = [] then joined else joined ++ ';' :: pp.2
  let fixed :=
    match wparams with
    | [] => wparams
    | x :: _ => if x = '/' then wparams else '/' :: wparams
  let wquery := if q.2 = [] then fixed else fixed ++ '?' :: q.2
  String.mk (WIKI_BASE.data ++ wquery)

/-- The loop body of `extract_wiki_links`: scan hrefs in document order; keep
an href if it matches `WIKI_PATH_RE` and was not seen before (appending its
join to `links` and the raw href to `seen`); stop as soon as `links` has 10
entries. -/
def extract_go : List String → List String → List String → List String × List String
  | [], links, seen => (links, seen)
  | href :: rest, links, seen =>
    let st :=
      if WIKI_PATH_RE_match href = true ∧ href ∉ seen then
        (links ++ [urljoin_wiki href], seen ++ [href])
      else (links, seen)
    if st.1.length = 10 then st else extract_go rest st.1 st.2

/-- `extract_wiki_links` from the source, on the document-order list of href
attributes of the page's anchors. -/
def extract_wiki_links (hrefs : List String) : List String := (extract_go hrefs [] []).1

/-! ## The crawl engine -/

/-- The inner `for link in extract_wiki_links(...)` loop of `crawl`: each link
not yet in `visited` is added to `visited`, appended to `all_links` and
enqueued at level `lvl1 = lvl + 1`. -/
def addLinks (lvl1 : Nat) :
    List String → List (String × Nat) → List String → List String →
      List (String × Nat) × List String × List String
  | [], queue, visited, all_links => (queue, visited, all_links)
  | link :: rest, queue, visited, all_links =>
    if link ∈ visited then addLinks lvl1 rest queue visited all_links
    else addLinks lvl1 rest (queue ++ [(link, lvl1)]) (link :: visited) (all_links ++ [link])

/-- The `while queue:` loop of `crawl`, with explicit fuel for the unbounded
loop (the fuel used by `crawl` is proved sufficient, see `crawlLoop_total`).
A dequeued entry at `lvl = depth` is dropped; a fetch failure (`web url =
none`) is skipped; otherwise the extracted links are folded in by `addLinks`. -/
def crawlLoop (web : String → Option (List String)) (depth : Nat) :
    Nat → List (String × Nat) → List String → List String → Option (List String)
  | _, [], _, all_links => some all_links
  | 0, _ :: _, _, _ => none
  | fuel + 1, (url, lvl) :: rest, visited, all_links =>
    if lvl = depth then crawlLoop web depth fuel rest visited all_links
    else
      match web url with
      | none => crawlLoop web depth fuel rest visited all_links
      | some hrefs =>
        let st := addLinks (lvl + 1) (extract_wiki_links hrefs) rest visited all_links
        crawlLoop web depth fuel st.1 st.2.1 st.2.2

/-- Fuel bound: `crawlFuel d` bounds the number of loop iterations of a crawl
of depth `d` starting from a single seed (fan-out per fetched page ≤ 10). -/
def crawlFuel : Nat → Nat
  | 0 => 1
  | d + 1 => 1 + 10 * crawlFuel d

/-- `crawl` from the source: `visited = {seed}`, `queue = [(seed, 0)]`,
`all_links = [seed]`, then the while loop. -/
def crawl (web : String → Option (List String)) (seed_url : String) (depth : Nat) :
    Option (List String) :=
  crawlLoop web depth (crawlFuel depth) [(seed_url, 0)] [seed_url] [seed_url]

/-! ## Ghost-instrumented crawl (records levels, fetch log and warnings) -/

/-- `addLinks`, additionally recording the BFS level of every appended link. -/
def addLinksL (lvl1 : Nat) :
    List String → List (String × Nat) → List String → List (String × Nat) →
      List (String × Nat) × List String × List (String × Nat)
  | [], queue, visited, acc => (queue, visited, acc)
  | link :: rest, queue, visited, acc =>
    if link ∈ visited then addLinksL lvl1 rest queue visited acc
    else addLinksL lvl1 rest (queue ++ [(link, lvl1)]) (link :: visited) (acc ++ [(link, lvl1)])

/-- `crawlLoop` instrumented with ghost observations: `acc` carries each
recorded link with its BFS level, `fetched` logs every `(url, lvl)` passed to
`requests.get`, and `warns` logs the URLs whose fetch failed (the `[WARN]`
lines printed to stderr). -/
def crawlRunLoop (web : String → Option (List String)) (depth : Nat) :
    Nat → List (String × Nat) → List String → List (String × Nat) →
      List (String × Nat) → List String →
      Option (List (String × Nat) × List (String × Nat) × List String)
  | _, [], _, acc, fetched, warns => some (acc, fetched, warns)
  | 0, _ :: _, _, _, _, _ => none
  | fuel + 1, (url, lvl) :: rest, visited, acc, fetched, warns =>
    if lvl = depth then crawlRunLoop web depth fuel rest visited acc fetched warns
    else
      match web url with
      | none =>
        crawlRunLoop web depth fuel rest visited acc (fetched ++ [(url, lvl)]) (warns ++ [url])
      | some hrefs =>
        let st := addLinksL (lvl + 1) (extract_wiki_links hrefs) rest visited acc
        crawlRunLoop web depth fuel st.1 st.2.1 st.2.2 (fetched ++ [(url, lvl)]) warns

/-- The instrumented crawl, with the same initial state and fuel as `crawl`. -/
def crawlRun (web : String → Option (List String)) (seed_url : String) (depth : Nat) :
    Option (List (String × Nat) × List (String × Nat) × List String) :=
  crawlRunLoop web depth (crawlFuel depth) [(seed_url, 0)] [seed_url] [(seed_url, 0)] [] []

/-! ## Lemmas about the link extractor -/

theorem crawlFuel_pos (d : Nat) : 1 ≤ crawlFuel d := by
  cases d with
  | zero => exact Nat.le_refl 1
  | succ n => exact Nat.le_add_right 1 _

/-- Everything `extract_go` appends beyond its arguments: the extra kept hrefs
are a sublist of the input, match the pattern, are new w.r.t. `seen`, keep
`seen` duplicate-free, respect the cap of 10, and (when the cap is not hit)
are exhaustive. -/
theorem extract_go_spec (hrefs : List String) :
    ∀ links seen : List String, seen.Nodup → links.length < 10 →
    ∃ extra : List String,
      extract_go hrefs links seen = (links ++ extra.map urljoin_wiki, seen ++ extra) ∧
      List.Sublist extra hrefs ∧
      (∀ h ∈ extra, WIKI_PATH_RE_match h = true ∧ h ∉ seen) ∧
      (seen ++ extra).Nodup ∧
      links.length + extra.length ≤ 10 ∧
      (links.length + extra.length < 10 →
        ∀ h ∈ hrefs, WIKI_PATH_RE_match h = true → h ∈ seen ++ extra) := by
  induction hrefs with
  | nil =>
    intro links seen hnd hlen
    exact ⟨[], by simp [extract_go], List.Sublist.refl _, by simp, by simpa using hnd,
      by simpa using Nat.le_of_lt hlen, by simp⟩
  | cons href rest ih =>
    intro links seen hnd hlen
    by_cases hc : WIKI_PATH_RE_match href = true ∧ href ∉ seen
    · by_cases h10 : links.length + 1 = 10
      · refine ⟨[href], ?_, ?_, ?_, ?_, ?_, ?_⟩
        · simp only [extract_go, if_pos hc]
          rw [if_pos (by simpa using h10)]
          simp
        · exact (List.nil_sublist rest).cons₂ href
        · intro h hh
          rcases List.mem_singleton.mp hh with rfl
          exact hc
        · simpa [List.nodup_append, hc.2] using hnd
        · simpa using Nat.le_of_eq h10
        · intro hlt
          simp at hlt
          omega
      · have hnd' : (seen ++ [href]).Nodup := by
          simpa [List.nodup_append, hc.2] using hnd
        have hlen' : (links ++ [urljoin_wiki href]).length < 10 := by
          simp
          omega
        obtain ⟨extra, heq, hsub, hprop, hnodup, hle, hcomp⟩ :=
          ih (links ++ [urljoin_wiki href]) (seen ++ [href]) hnd' hlen'
        refine ⟨href :: extra, ?_, ?_, ?_, ?_, ?_, ?_⟩
        · simp only [extract_go, if_pos hc]
          rw [if_neg (by simpa using h10)]
          simpa using heq
        · exact hsub.cons₂ href
        · intro h hh
          rcases List.mem_cons.mp hh with rfl | hh
          · exact hc
          · have := hprop h hh
            refine ⟨this.1, fun hmem => this.2 (List.mem_append_left _ hmem)⟩
        · simpa using hnodup
        · simp only [List.length_cons]
          simp at hle
          omega
        · intro hlt h hh hm
          rcases List.mem_cons.mp hh with rfl | hh
          · simp
          · have := hcomp (by simp; simp at hlt; omega) h hh hm
            simpa using this
    · obtain ⟨extra, heq, hsub, hprop, hnodup, hle, hcomp⟩ := ih links seen hnd hlen
      refine ⟨extra, ?_, hsub.cons href, hprop, hnodup, hle, ?_⟩
      · simp only [extract_go, if_neg hc]
        rw [if_neg (Nat.ne_of_lt hlen)]
        exact heq
      · intro hlt h hh hm
        rcases List.mem_cons.mp hh with rfl | hh
        · by_cases hs : h ∈ seen
          · exact List.mem_append_left _ hs
          · exact absurd ⟨hm, hs⟩ hc
        · exact hcomp hlt h hh hm

/-- The packaged form of `extract_go_spec` for `extract_wiki_links`. -/
theorem extract_wiki_links_spec (hrefs : List String) :
    ∃ kept : List String,
      extract_wiki_links hrefs = kept.map urljoin_wiki ∧
      List.Sublist kept hrefs ∧
      (∀ h ∈ kept, WIKI_PATH_RE_match h = true) ∧
      kept.Nodup ∧
      kept.length ≤ 10 ∧
      (kept.length < 10 → ∀ h ∈ hrefs, WIKI_PATH_RE_match h = true → h ∈ kept) := by
  obtain ⟨extra, heq, hsub, hprop, hnodup, hle, hcomp⟩ :=
    extract_go_spec hrefs [] [] List.nodup_nil (by norm_num)
  refine ⟨extra, ?_, hsub, fun h hh => (hprop h hh).1, by simpa using hnodup,
    by simpa using hle, ?_⟩
  · simp [extract_wiki_links, heq]
  · intro hlt h hh hm
    simpa using hcomp (by simpa using hlt) h hh hm

theorem extract_wiki_links_length (hrefs : List String) :
    (extract_wiki_links hrefs).length ≤ 10 := by
  obtain ⟨kept, heq, -, -, -, hle, -⟩ := extract_wiki_links_spec hrefs
  simpa [heq] using hle

/-- Every extracted link is the join of some href that matched the pattern. -/
theorem extract_wiki_links_mem (hrefs : List String) :
    ∀ x ∈ extract_wiki_links hrefs,
      ∃ href, WIKI_PATH_RE_match href = true ∧ x = urljoin_wiki href := by
  obtain ⟨kept, heq, -, hprop, -, -, -⟩ := extract_wiki_links_spec hrefs
  intro x hx
  rw [heq] at hx
  obtain ⟨href, hh, rfl⟩ := List.mem_map.mp hx
  exact ⟨href, hprop href hh, rfl⟩

/-! ## Lemmas about the crawl loop -/

/-- Characterisation of one `addLinksL` pass: it appends a block `new` of
fresh links (tagged with level `lvl1`) to the queue and to the accumulator,
and pushes their names onto `visited`. -/
theorem addLinksL_spec (lvl1 : Nat) (ls : List String) :
    ∀ queue visited acc, ∃ new : List (String × Nat),
      addLinksL lvl1 ls queue visited acc =
        (queue ++ new, (new.map Prod.fst).reverse ++ visited, acc ++ new) ∧
      (∀ e ∈ new, e.2 = lvl1 ∧ e.1 ∈ ls ∧ e.1 ∉ visited) ∧
      (new.map Prod.fst).Nodup ∧ new.length ≤ ls.length := by
  induction ls with
  | nil =>
    intro q v a
    exact ⟨[], by simp [addLinksL], by simp, by simp, by simp⟩
  | cons link rest ih =>
    intro q v a
    by_cases hv : link ∈ v
    · obtain ⟨new, heq, hprop, hnd, hlen⟩ := ih q v a
      refine ⟨new, ?_, ?_, hnd, Nat.le_succ_of_le hlen⟩
      · simp only [addLinksL, if_pos hv]
        exact heq
      · intro e he
        obtain ⟨h1, h2, h3⟩ := hprop e he
        exact ⟨h1, List.mem_cons_of_mem _ h2, h3⟩
    · obtain ⟨new, heq, hprop, hnd, hlen⟩ := ih (q ++ [(link, lvl1)]) (link :: v) (a ++ [(link, lvl1)])
      refine ⟨(link, lvl1) :: new, ?_, ?_, ?_, by simpa using Nat.succ_le_succ hlen⟩
      · simp only [addLinksL, if_neg hv]
        rw [heq]
        simp
      · intro e he
        rcases List.mem_cons.mp he with rfl | he
        · exact ⟨rfl, List.mem_cons_self _ _, hv⟩
        · obtain ⟨h1, h2, h3⟩ := hprop e he
          exact ⟨h1, List.mem_cons_of_mem _ h2, fun hh => h3 (List.mem_cons_of_mem _ hh)⟩
      · simp only [List.map_cons, List.nodup_cons]
        refine ⟨?_, hnd⟩
        intro hmem
        obtain ⟨e, he, hfst⟩ := List.mem_map.mp hmem
        exact (hprop e he).2.2 (by rw [hfst]; exact List.mem_cons_self _ _)

/-- `addLinks` is the `Prod.fst` projection of `addLinksL`. -/
theorem addLinks_eq (lvl1 : Nat) (ls : List String) :
    ∀ queue visited (acc : List (String × Nat)),
      addLinks lvl1 ls queue visited (acc.map Prod.fst) =
        ((addLinksL lvl1 ls queue visited acc).1,
         (addLinksL lvl1 ls queue visited acc).2.1,
         ((addLinksL lvl1 ls queue visited acc).2.2).map Prod.fst) := by
  induction ls with
  | nil => intro q v a; simp [addLinks, addLinksL]
  | cons link rest ih =>
    intro q v a
    by_cases hv : link ∈ v
    · simp only [addLinks, addLinksL, if_pos hv]
      exact ih q v a
    · simp only [addLinks, addLinksL, if_neg hv]
      have h := ih (q ++ [(link, lvl1)]) (link :: v) (a ++ [(link, lvl1)])
      simpa using h

/-- `crawlLoop` is the projection of the instrumented `crawlRunLoop`: the
ghost level/fetch/warn observations do not influence the computed links. -/
theorem crawlLoop_eq (web : String → Option (List String)) (depth : Nat) :
    ∀ fuel queue visited (acc : List (String × Nat)) fetched warns,
      crawlLoop web depth fuel queue visited (acc.map Prod.fst) =
        Option.map (fun t => t.1.map Prod.fst)
          (crawlRunLoop web depth fuel queue visited acc fetched warns) := by
  intro fuel
  induction fuel with
  | zero =>
    intro queue visited acc fetched warns
    cases queue with
    | nil => simp [crawlLoop, crawlRunLoop]
    | cons e rest =>
      obtain ⟨url, lvl⟩ := e
      simp [crawlLoop, crawlRunLoop]
  | succ fuel ih =>
    intro queue visited acc fetched warns
    cases queue with
    | nil => simp [crawlLoop, crawlRunLoop]
    | cons e rest =>
      obtain ⟨url, lvl⟩ := e
      by_cases hl : lvl = depth
      · simp only [crawlLoop, crawlRunLoop, if_pos hl]
        exact ih rest visited acc fetched warns
      · cases hw : web url with
        | none =>
          simp only [crawlLoop, crawlRunLoop, if_neg hl, hw]
          exact ih rest visited acc (fetched ++ [(url, lvl)]) (warns ++ [url])
        | some hrefs =>
          simp only [crawlLoop, crawlRunLoop, if_neg hl, hw]
          rw [addLinks_eq]
          exact ih _ _ _ _ _

/-- `crawl` is the projection of `crawlRun`. -/
theorem crawl_eq_crawlRun (web : String → Option (List String)) (seed : String) (depth : Nat) :
    crawl web seed depth =
      Option.map (fun t => t.1.map Prod.fst) (crawlRun web seed depth) := by
  have h := crawlLoop_eq web depth (crawlFuel depth) [(seed, 0)] [seed] [(seed, 0)] [] []
  simpa [crawl, crawlRun] using h

/-- If `crawl` returns a result, `crawlRun` returns an instrumented one that
projects onto it. -/
theorem crawlRun_of_crawl (web : String → Option (List String)) (seed : String) (depth : Nat)
    (r : List String) (h : crawl web seed depth = some r) :
    ∃ t, crawlRun web seed depth = some t ∧ r = t.1.map Prod.fst := by
  have he := crawl_eq_crawlRun web seed depth
  rw [h] at he
  cases ht : crawlRun web seed depth with
  | none => rw [ht] at he; simp at he
  | some t =>
    rw [ht] at he
    simp only [Option.map_some'] at he
    exact ⟨t, rfl, Option.some.inj he⟩

/-! ## Termination: the fuel supplied by `crawl` is sufficient -/

/-- Potential of the frontier: each entry at level `l` can cause at most
`crawlFuel (depth - l)` further loop iterations. -/
def queueMeasure (depth : Nat) (queue : List (String × Nat)) : Nat :=
  (queue.map (fun e => crawlFuel (depth - e.2))).sum

theorem sum_map_const {α : Type} (l : List α) (f : α → Nat) (c : Nat)
    (h : ∀ x ∈ l, f x = c) : (l.map f).sum = l.length * c := by
  induction l with
  | nil => simp
  | cons x xs ih =>
    simp only [List.map_cons, List.sum_cons, List.length_cons]
    rw [h x (List.mem_cons_self _ _), ih fun y hy => h y (List.mem_cons_of_mem _ hy)]
    ring

/-- Fuel sufficiency: if the fuel dominates the queue potential (and all queue
levels are ≤ depth), the loop runs to completion. -/
theorem crawlRunLoop_total (web : String → Option (List String)) (depth : Nat) :
    ∀ fuel queue visited acc fetched warns,
      (∀ e ∈ queue, e.2 ≤ depth) →
      queueMeasure depth queue ≤ fuel →
      ∃ t, crawlRunLoop web depth fuel queue visited acc fetched warns = some t := by
  intro fuel
  induction fuel with
  | zero =>
    intro queue v a f w hq hm
    cases queue with
    | nil => exact ⟨_, rfl⟩
    | cons e rest =>
      exfalso
      obtain ⟨url, lvl⟩ := e
      have h1 : 1 ≤ crawlFuel (depth - lvl) := crawlFuel_pos _
      simp [queueMeasure] at hm
      omega
  | succ fuel ih =>
    intro queue v a f w hq hm
    cases queue with
    | nil => exact ⟨_, rfl⟩
    | cons e rest =>
      obtain ⟨url, lvl⟩ := e
      have hlvl : lvl ≤ depth := hq (url, lvl) (List.mem_cons_self _ _)
      have hq' : ∀ e ∈ rest, e.2 ≤ depth := fun e he => hq e (List.mem_cons_of_mem _ he)
      have hm' : queueMeasure depth ((url, lvl) :: rest) =
          crawlFuel (depth - lvl) + queueMeasure depth rest := by
        simp [queueMeasure]
      have h1 : 1 ≤ crawlFuel (depth - lvl) := crawlFuel_pos _
      by_cases hl : lvl = depth
      · simp only [crawlRunLoop, if_pos hl]
        exact ih rest v a f w hq' (by omega)
      · cases hw : web url with
        | none =>
          simp only [crawlRunLoop, if_neg hl, hw]
          exact ih rest v a _ _ hq' (by omega)
        | some hrefs =>
          simp only [crawlRunLoop, if_neg hl, hw]
          obtain ⟨new, heq, hprop, hnd, hlen⟩ :=
            addLinksL_spec (lvl + 1) (extract_wiki_links hrefs) rest v a
          rw [heq]
          have hlt : lvl < depth := Nat.lt_of_le_of_ne hlvl hl
          have hcf : crawlFuel (depth - lvl) = 1 + 10 * crawlFuel (depth - (lvl + 1)) := by
            have hsplit : depth - lvl = (depth - (lvl + 1)) + 1 := by omega
            rw [hsplit]
            rfl
          apply ih
          · intro e he
            rcases List.mem_append.mp he with he | he
            · exact hq' e he
            · have h2 := (hprop e he).1
              omega
          · have hsum : queueMeasure depth (rest ++ new) =
                queueMeasure depth rest + new.length * crawlFuel (depth - (lvl + 1)) := by
              simp only [queueMeasure, List.map_append, List.sum_append]
              rw [sum_map_const new _ _ fun e he => by rw [(hprop e he).1]]
            have hnew10 : new.length ≤ 10 :=
              le_trans hlen (extract_wiki_links_length hrefs)
            have hmul : new.length * crawlFuel (depth - (lvl + 1)) ≤
                10 * crawlFuel (depth - (lvl + 1)) :=
              Nat.mul_le_mul_right _ hnew10
            have hgoal : queueMeasure depth rest + 10 * crawlFuel (depth - (lvl + 1)) ≤ fuel := by
              omega
            rw [hsum]
            exact le_trans (Nat.add_le_add_left hmul _) hgoal

/-- `crawlRun` always yields a result: the fuel `crawlFuel depth` dominates
the initial queue potential. -/
theorem crawlRun_some (web : String → Option (List String)) (seed : String) (depth : Nat) :
    ∃ t, crawlRun web seed depth = some t := by
  apply crawlRunLoop_total
  · intro e he
    rcases List.mem_singleton.mp he with rfl
    exact Nat.zero_le _
  · simp [queueMeasure]

/-- `crawl` always terminates with a result. -/
theorem crawl_some (web : String → Option (List String)) (seed : String) (depth : Nat) :
    ∃ r, crawl web seed depth = some r := by
  obtain ⟨t, ht⟩ := crawlRun_some web seed depth
  exact ⟨t.1.map Prod.fst, by rw [crawl_eq_crawlRun, ht]; rfl⟩

/-! ## Invariants of the instrumented crawl loop -/

/-- The recorded links never repeat: `all_links` stays duplicate-free because
a link is appended only when absent from `visited`, which contains every link
ever appended. -/
theorem crawlRunLoop_nodup (web : String → Option (List String)) (depth : Nat) :
    ∀ fuel queue visited acc fetched warns t,
      (acc.map Prod.fst).Nodup →
      (∀ x ∈ acc.map Prod.fst, x ∈ visited) →
      crawlRunLoop web depth fuel queue visited acc fetched warns = some t →
      (t.1.map Prod.fst).Nodup := by
  intro fuel
  induction fuel with
  | zero =>
    intro queue v a f w t h1 h2 heq
    cases queue with
    | nil =>
      simp only [crawlRunLoop] at heq
      obtain rfl := Option.some.inj heq
      exact h1
    | cons e rest =>
      obtain ⟨url, lvl⟩ := e
      simp [crawlRunLoop] at heq
  | succ fuel ih =>
    intro queue v a f w t h1 h2 heq
    cases queue with
    | nil =>
      simp only [crawlRunLoop] at heq
      obtain rfl := Option.some.inj heq
      exact h1
    | cons e rest =>
      obtain ⟨url, lvl⟩ := e
      by_cases hl : lvl = depth
      · simp only [crawlRunLoop, if_pos hl] at heq
        exact ih rest v a f w t h1 h2 heq
      · cases hw : web url with
        | none =>
          simp only [crawlRunLoop, if_neg hl, hw] at heq
          exact ih rest v a _ _ t h1 h2 heq
        | some hrefs =>
          simp only [crawlRunLoop, if_neg hl, hw] at heq
          obtain ⟨new, hadd, hprop, hnd, hlen⟩ :=
            addLinksL_spec (lvl + 1) (extract_wiki_links hrefs) rest v a
          rw [hadd] at heq
          refine ih _ _ _ _ _ t ?_ ?_ heq
          · rw [List.map_append]
            refine List.Nodup.append h1 hnd ?_
            intro x hx hx2
            obtain ⟨e, he, rfl⟩ := List.mem_map.mp hx2
            exact (hprop e he).2.2 (h2 _ hx)
          · intro x hx
            rw [List.map_append] at hx
            rcases List.mem_append.mp hx with hx | hx
            · exact List.mem_append_right _ (h2 x hx)
            · exact List.mem_append_left _ (by simpa using hx)

/-- Every link the loop ever records (and hence also everything it enqueues,
which is recorded at the same moment) is either already in the accumulator or
the join of a pattern-matching href. -/
theorem crawlRunLoop_shape (web : String → Option (List String)) (depth : Nat) (seed : String) :
    ∀ fuel queue visited acc fetched warns t,
      (∀ e ∈ acc, e.1 = seed ∨
        ∃ href, WIKI_PATH_RE_match href = true ∧ e.1 = urljoin_wiki href) →
      crawlRunLoop web depth fuel queue visited acc fetched warns = some t →
      ∀ e ∈ t.1, e.1 = seed ∨
        ∃ href, WIKI_PATH_RE_match href = true ∧ e.1 = urljoin_wiki href := by
  intro fuel
  induction fuel with
  | zero =>
    intro queue v a f w t h1 heq
    cases queue with
    | nil =>
      simp only [crawlRunLoop] at heq
      obtain rfl := Option.some.inj heq
      exact h1
    | cons e rest =>
      obtain ⟨url, lvl⟩ := e
      simp [crawlRunLoop] at heq
  | succ fuel ih =>
    intro queue v a f w t h1 heq
    cases queue with
    | nil =>
      simp only [crawlRunLoop] at heq
      obtain rfl := Option.some.inj heq
      exact h1
    | cons e rest =>
      obtain ⟨url, lvl⟩ := e
      by_cases hl : lvl = depth
      · simp only [crawlRunLoop, if_pos hl] at heq
        exact ih rest v a f w t h1 heq
      · cases hw : web url with
        | none =>
          simp only [crawlRunLoop, if_neg hl, hw] at heq
          exact ih rest v a _ _ t h1 heq
        | some hrefs =>
          simp only [crawlRunLoop, if_neg hl, hw] at heq
          obtain ⟨new, hadd, hprop, hnd, hlen⟩ :=
            addLinksL_spec (lvl + 1) (extract_wiki_links hrefs) rest v a
          rw [hadd] at heq
          refine ih _ _ _ _ _ t ?_ heq
          intro e he
          rcases List.mem_append.mp he with he | he
          · exact h1 e he
          · obtain ⟨href, hm, hjoin⟩ :=
              extract_wiki_links_mem hrefs e.1 (hprop e he).2.1
            exact Or.inr ⟨href, hm, hjoin⟩

/-- Level bookkeeping: queue and recorded levels never exceed `depth`, and
every fetched entry has level strictly below `depth`. -/
theorem crawlRunLoop_levels (web : String → Option (List String)) (depth : Nat) :
    ∀ fuel queue visited acc fetched warns t,
      (∀ e ∈ queue, e.2 ≤ depth) →
      (∀ e ∈ acc, e.2 ≤ depth) →
      (∀ e ∈ fetched, e.2 < depth) →
      crawlRunLoop web depth fuel queue visited acc fetched warns = some t →
      (∀ e ∈ t.1, e.2 ≤ depth) ∧ (∀ e ∈ t.2.1, e.2 < depth) := by
  intro fuel
  induction fuel with
  | zero =>
    intro queue v a f w t hq ha hf heq
    cases queue with
    | nil =>
      simp only [crawlRunLoop] at heq
      obtain rfl := Option.some.inj heq
      exact ⟨ha, hf⟩
    | cons e rest =>
      obtain ⟨url, lvl⟩ := e
      simp [crawlRunLoop] at heq
  | succ fuel ih =>
    intro queue v a f w t hq ha hf heq
    cases queue with
    | nil =>
      simp only [crawlRunLoop] at heq
      obtain rfl := Option.some.inj heq
      exact ⟨ha, hf⟩
    | cons e rest =>
      obtain ⟨url, lvl⟩ := e
      have hq' : ∀ e ∈ rest, e.2 ≤ depth := fun e he => hq e (List.mem_cons_of_mem _ he)
      have hlvl : lvl ≤ depth := hq (url, lvl) (List.mem_cons_self _ _)
      by_cases hl : lvl = depth
      · simp only [crawlRunLoop, if_pos hl] at heq
        exact ih rest v a f w t hq' ha hf heq
      · have hvlt : lvl < depth := Nat.lt_of_le_of_ne hlvl hl
        have hf' : ∀ e ∈ f ++ [(url, lvl)], e.2 < depth := by
          intro e he
          rcases List.mem_append.mp he with he | he
          · exact hf e he
          · rcases List.mem_singleton.mp he with rfl
            exact hvlt
        cases hw : web url with
        | none =>
          simp only [crawlRunLoop, if_neg hl, hw] at heq
          exact ih rest v a _ _ t hq' ha hf' heq
        | some hrefs =>
          simp only [crawlRunLoop, if_neg hl, hw] at heq
          obtain ⟨new, hadd, hprop, hnd, hlen⟩ :=
            addLinksL_spec (lvl + 1) (extract_wiki_links hrefs) rest v a
          rw [hadd] at heq
          have hnew : ∀ e ∈ new, e.2 ≤ depth := by
            intro e he
            rw [(hprop e he).1]
            omega
          refine ih _ _ _ _ _ t ?_ ?_ hf' heq
          · intro e he
            rcases List.mem_append.mp he with he | he
            · exact hq' e he
            · exact hnew e he
          · intro e he
            rcases List.mem_append.mp he with he | he
            · exact ha e he
            · exact hnew e he

theorem pairwise_le_of_all_eq (l : List Nat) (c : Nat) (h : ∀ x ∈ l, x = c) :
    l.Pairwise (· ≤ ·) := by
  induction l with
  | nil => exact List.Pairwise.nil
  | cons x xs ih =>
    refine List.Pairwise.cons ?_ (ih fun y hy => h y (List.mem_cons_of_mem _ hy))
    intro y hy
    rw [h x (List.mem_cons_self _ _), h y (List.mem_cons_of_mem _ hy)]

/-- BFS order: the levels of the recorded links are nondecreasing.  The
invariants are: recorded levels sorted; queue levels sorted and spanning at
most two consecutive values; recorded levels at most one above any queue
level. -/
theorem crawlRunLoop_sorted (web : String → Option (List String)) (depth : Nat) :
    ∀ fuel queue visited acc fetched warns t,
      (acc.map Prod.snd).Pairwise (· ≤ ·) →
      (queue.map Prod.snd).Pairwise (· ≤ ·) →
      (∀ x ∈ queue.map Prod.snd, ∀ y ∈ queue.map Prod.snd, y ≤ x + 1) →
      (∀ m ∈ acc.map Prod.snd, ∀ l ∈ queue.map Prod.snd, m ≤ l + 1) →
      crawlRunLoop web depth fuel queue visited acc fetched warns = some t →
      (t.1.map Prod.snd).Pairwise (· ≤ ·) := by
  intro fuel
  induction fuel with
  | zero =>
    intro queue v a f w t h1 h2 h3 h4 heq
    cases queue with
    | nil =>
      simp only [crawlRunLoop] at heq
      obtain rfl := Option.some.inj heq
      exact h1
    | cons e rest =>
      obtain ⟨url, lvl⟩ := e
      simp [crawlRunLoop] at heq
  | succ fuel ih =>
    intro queue v a f w t h1 h2 h3 h4 heq
    cases queue with
    | nil =>
      simp only [crawlRunLoop] at heq
      obtain rfl := Option.some.inj heq
      exact h1
    | cons e rest =>
      obtain ⟨url, lvl⟩ := e
      have hq2 : (rest.map Prod.snd).Pairwise (· ≤ ·) :=
        (List.pairwise_cons.mp (by simpa using h2)).2
      have hhead : ∀ x ∈ rest.map Prod.snd, lvl ≤ x :=
        (List.pairwise_cons.mp (by simpa using h2)).1
      have hlvlmem : lvl ∈ ((url, lvl) :: rest).map Prod.snd := by
        simp only [List.map_cons]
        exact List.mem_cons_self _ _
      have hmemq : ∀ x ∈ rest.map Prod.snd, x ∈ ((url, lvl) :: rest).map Prod.snd := by
        intro x hx
        simp only [List.map_cons]
        exact List.mem_cons_of_mem _ hx
      by_cases hl : lvl = depth
      · simp only [crawlRunLoop, if_pos hl] at heq
        refine ih rest v a f w t h1 hq2 ?_ ?_ heq
        · exact fun x hx y hy => h3 x (hmemq x hx) y (hmemq y hy)
        · exact fun m hm l hlm => h4 m hm l (hmemq l hlm)
      · cases hw : web url with
        | none =>
          simp only [crawlRunLoop, if_neg hl, hw] at heq
          refine ih rest v a _ _ t h1 hq2 ?_ ?_ heq
          · exact fun x hx y hy => h3 x (hmemq x hx) y (hmemq y hy)
          · exact fun m hm l hlm => h4 m hm l (hmemq l hlm)
        | some hrefs =>
          simp only [crawlRunLoop, if_neg hl, hw] at heq
          obtain ⟨new, hadd, hprop, hnd, hlen⟩ :=
            addLinksL_spec (lvl + 1) (extract_wiki_links hrefs) rest v a
          rw [hadd] at heq
          have hnewsnd : ∀ y ∈ new.map Prod.snd, y = lvl + 1 := by
            intro y hy
            obtain ⟨e, he, rfl⟩ := List.mem_map.mp hy
            exact (hprop e he).1
          refine ih (rest ++ new) _ (a ++ new) _ _ t ?_ ?_ ?_ ?_ heq
          · rw [List.map_append]
            refine List.pairwise_append.mpr ⟨h1, pairwise_le_of_all_eq _ _ hnewsnd, ?_⟩
            intro m hm y hy
            rw [hnewsnd y hy]
            exact h4 m hm lvl hlvlmem
          · rw [List.map_append]
            refine List.pairwise_append.mpr ⟨hq2, pairwise_le_of_all_eq _ _ hnewsnd, ?_⟩
            intro x hx y hy
            rw [hnewsnd y hy]
            exact h3 lvl hlvlmem x (hmemq x hx)
          · intro x hx y hy
            rw [List.map_append] at hx hy
            rcases List.mem_append.mp hx with hx | hx <;>
              rcases List.mem_append.mp hy with hy | hy
            · exact h3 x (hmemq x hx) y (hmemq y hy)
            · rw [hnewsnd y hy]
              have := hhead x hx
              omega
            · rw [hnewsnd x hx]
              have := h3 lvl hlvlmem y (hmemq y hy)
              omega
            · rw [hnewsnd x hx, hnewsnd y hy]
              omega
          · intro m hm l hlm
            rw [List.map_append] at hm hlm
            rcases List.mem_append.mp hm with hm | hm <;>
              rcases List.mem_append.mp hlm with hlm | hlm
            · exact h4 m hm l (hmemq l hlm)
            · rw [hnewsnd l hlm]
              have := h4 m hm lvl hlvlmem
              omega
            · rw [hnewsnd m hm]
              have := hhead l hlm
              omega
            · rw [hnewsnd m hm, hnewsnd l hlm]
              omega

/-- The first recorded entry never changes (the seed stays first). -/
theorem crawlRunLoop_head (web : String → Option (List String)) (depth : Nat) :
    ∀ fuel queue visited acc fetched warns t,
      crawlRunLoop web depth fuel queue visited acc fetched warns = some t →
      acc ≠ [] → t.1.head? = acc.head? := by
  intro fuel
  induction fuel with
  | zero =>
    intro queue v a f w t heq ha
    cases queue with
    | nil =>
      simp only [crawlRunLoop] at heq
      obtain rfl := Option.some.inj heq
      rfl
    | cons e rest =>
      obtain ⟨url, lvl⟩ := e
      simp [crawlRunLoop] at heq
  | succ fuel ih =>
    intro queue v a f w t heq ha
    cases queue with
    | nil =>
      simp only [crawlRunLoop] at heq
      obtain rfl := Option.some.inj heq
      rfl
    | cons e rest =>
      obtain ⟨url, lvl⟩ := e
      by_cases hl : lvl = depth
      · simp only [crawlRunLoop, if_pos hl] at heq
        exact ih rest v a f w t heq ha
      · cases hw : web url with
        | none =>
          simp only [crawlRunLoop, if_neg hl, hw] at heq
          exact ih rest v a _ _ t heq ha
        | some hrefs =>
          simp only [crawlRunLoop, if_neg hl, hw] at heq
          obtain ⟨new, hadd, hprop, hnd, hlen⟩ :=
            addLinksL_spec (lvl + 1) (extract_wiki_links hrefs) rest v a
          rw [hadd] at heq
          cases a with
          | nil => exact absurd rfl ha
          | cons x xs =>
            have := ih _ _ _ _ _ t heq (by simp)
            simpa using this

/-! ## Lemmas about the validator -/

/-- A path containing a colon can never match `^/wiki/[^:#]+$`. -/
theorem wikiPathMatchL_of_colon (l : List Char) (h : ':' ∈ l) : wikiPathMatchL l = false := by
  have h' : ':' ∈ l.take 6 ∨ ':' ∈ l.drop 6 := by
    rw [← List.take_append_drop 6 l] at h
    exact List.mem_append.mp h
  rcases h' with h' | h'
  · by_cases he : l.take 6 = ['/', 'w', 'i', 'k', 'i', '/']
    · rw [he] at h'
      simp at h'
    · simp only [wikiPathMatchL]
      rw [decide_eq_false he]
      simp
  · have hall : (l.drop 6).all (fun c => !(c = ':' || c = '#')) = false := by
      cases hca : (l.drop 6).all (fun c => !(c = ':' || c = '#')) with
      | false => rfl
      | true =>
        exfalso
        have := List.all_eq_true.mp hca ':' h'
        simp at this
    simp only [wikiPathMatchL]
    rw [hall]
    simp

/-- A string not starting with `/` can never match `^/wiki/[^:#]+$`. -/
theorem wikiPathMatchL_head_ne (c : Char) (cs : List Char) (h : c ≠ '/') :
    wikiPathMatchL (c :: cs) = false := by
  have hne : ¬((c :: cs).take 6 = ['/', 'w', 'i', 'k', 'i', '/']) := by
    simp only [List.take_succ_cons]
    intro hh
    injection hh with hh1 _
    exact h hh1
  simp only [wikiPathMatchL]
  rw [decide_eq_false hne]
  simp

/-- Python `s.startswith(pre)`. -/
def startswith (s pre : String) : Bool := decide (s.data.take pre.data.length = pre.data)

/-- An absolute http(s) URL used as an href never matches `WIKI_PATH_RE`. -/
theorem wikiPathMatch_absolute (href : String)
    (h : startswith href "http://" = true ∨ startswith href "https://" = true) :
    WIKI_PATH_RE_match href = false := by
  have hwm : WIKI_PATH_RE_match href = wikiPathMatchL href.data := rfl
  cases hd : href.data with
  | nil =>
    rw [hwm, hd]
    decide
  | cons c cs =>
    have hch : c = 'h' := by
      rcases h with h | h
      · have hp : href.data.take 7 = "http://".data := of_decide_eq_true h
        rw [hd, (rfl : "http://".data = ['h', 't', 't', 'p', ':', '/', '/']),
          List.take_succ_cons] at hp
        injection hp with h1 h2
      · have hp : href.data.take 8 = "https://".data := of_decide_eq_true h
        rw [hd, (rfl : "https://".data = ['h', 't', 't', 'p', 's', ':', '/', '/']),
          List.take_succ_cons] at hp
        injection hp with h1 h2
    rw [hwm, hd, hch]
    exact wikiPathMatchL_head_ne 'h' cs (by decide)

/-- A page all of whose hrefs are absolute http(s) URLs yields no links. -/
theorem extract_wiki_links_absolute (hrefs : List String)
    (h : ∀ x ∈ hrefs, startswith x "http://" = true ∨ startswith x "https://" = true) :
    extract_wiki_links hrefs = [] := by
  obtain ⟨kept, heq, hsub, hprop, -, -, -⟩ := extract_wiki_links_spec hrefs
  cases hk : kept with
  | nil =>
    rw [heq, hk]
    rfl
  | cons k ks =>
    exfalso
    have hmem : k ∈ kept := by rw [hk]; exact List.mem_cons_self _ _
    have h1 := hprop k hmem
    have h2 := wikiPathMatch_absolute k (h k (hsub.subset hmem))
    rw [h1] at h2
    exact Bool.noConfusion h2

theorem validator_scheme_false (s : String) (p : ParseResult) (hp : urlparseE s = Except.ok p)
    (h1 : p.scheme ≠ "http") (h2 : p.scheme ≠ "https") :
    is_valid_wiki_url s = Except.ok false := by
  simp [is_valid_wiki_url, hp, h1, h2]

theorem validator_netloc_false (s : String) (p : ParseResult) (hp : urlparseE s = Except.ok p)
    (h : endswith p.netloc "wikipedia.org" = false) :
    is_valid_wiki_url s = Except.ok false := by
  simp [is_valid_wiki_url, hp, h]

theorem validator_colon_false (s : String) (p : ParseResult) (hp : urlparseE s = Except.ok p)
    (h : ':' ∈ p.path.data) :
    is_valid_wiki_url s = Except.ok false := by
  have hm := wikiPathMatchL_of_colon p.path.data h
  simp [is_valid_wiki_url, hp, WIKI_PATH_RE_match, hm]

/-! ## Claim theorems -/

/-- C1: for every web, seed URL and depth, the list returned by `crawl`
contains no duplicate URLs, so the reported total count (`len(R)`) equals the
unique count (`len(set(R))`, modelled by `List.dedup`). -/
theorem C1_crawl_result_nodup (web : String → Option (List String)) (seed : String)
    (depth : Nat) (r : List String) (h : crawl web seed depth = some r) :
    r.Nodup ∧ r.dedup.length = r.length := by
  obtain ⟨t, ht, rfl⟩ := crawlRun_of_crawl web seed depth r h
  have hnd := crawlRunLoop_nodup web depth (crawlFuel depth) [(seed, 0)] [seed]
    [(seed, 0)] [] [] t (by simp) (by simp) ht
  exact ⟨hnd, by rw [List.dedup_eq_self.mpr hnd]⟩

theorem C1_witness :
    (["https://en.wikipedia.org/wiki/A1"] : List String).Nodup ∧
    (["https://en.wikipedia.org/wiki/A1"] : List String).dedup.length =
      (["https://en.wikipedia.org/wiki/A1"] : List String).length :=
  C1_crawl_result_nodup (fun _ => none) "https://en.wikipedia.org/wiki/A1" 1
    ["https://en.wikipedia.org/wiki/A1"] rfl

/-- C2 counterexample: the claim "only URLs satisfying `is_valid_wiki_url`
enter the frontier or the result" is false.  With the valid seed
`.../wiki/Cat` whose page contains the href `/wiki/..` (which matches
`WIKI_PATH_RE`), `urljoin` resolves the dot segments to
`https://en.wikipedia.org/`, which fails `is_valid_wiki_url` yet is appended
to the result and enqueued. -/
theorem C2_counterexample :
    is_valid_wiki_url "https://en.wikipedia.org/wiki/Cat" = Except.ok true ∧
    crawl (fun u => if u = "https://en.wikipedia.org/wiki/Cat" then some ["/wiki/.."] else none)
        "https://en.wikipedia.org/wiki/Cat" 1 =
      some ["https://en.wikipedia.org/wiki/Cat", "https://en.wikipedia.org/"] ∧
    is_valid_wiki_url "https://en.wikipedia.org/" = Except.ok false :=
  ⟨rfl, rfl, rfl⟩

/-- C2 (amended): every URL that `crawl` records (and everything it enqueues
is recorded at the same moment) is either the seed itself or
`urljoin(WIKI_BASE, href)` for some href matching `WIKI_PATH_RE`; such joined
URLs usually, but not always, satisfy `is_valid_wiki_url`. -/
theorem C2_amended_result_shape (web : String → Option (List String)) (seed : String)
    (depth : Nat) (r : List String) (h : crawl web seed depth = some r) :
    ∀ x ∈ r, x = seed ∨ ∃ href, WIKI_PATH_RE_match href = true ∧ x = urljoin_wiki href := by
  obtain ⟨t, ht, rfl⟩ := crawlRun_of_crawl web seed depth r h
  intro x hx
  obtain ⟨e, he, rfl⟩ := List.mem_map.mp hx
  refine crawlRunLoop_shape web depth seed (crawlFuel depth) [(seed, 0)] [seed]
    [(seed, 0)] [] [] t ?_ ht e he
  intro e' he'
  rcases List.mem_singleton.mp he' with rfl
  exact Or.inl rfl

theorem C2_witness :
    "https://en.wikipedia.org/" = "https://en.wikipedia.org/wiki/Cat" ∨
    ∃ href, WIKI_PATH_RE_match href = true ∧
      "https://en.wikipedia.org/" = urljoin_wiki href :=
  C2_amended_result_shape
    (fun u => if u = "https://en.wikipedia.org/wiki/Cat" then some ["/wiki/.."] else none)
    "https://en.wikipedia.org/wiki/Cat" 1
    ["https://en.wikipedia.org/wiki/Cat", "https://en.wikipedia.org/"] rfl
    "https://en.wikipedia.org/" (by simp)

/-- C3 counterexample: two of the claimed rejection cases do not hold.
`http://evilwikipedia.org/wiki/Cat` has a host that is neither the site
domain nor a subdomain of it (the code only checks the string suffix), and
`https://en.wikipedia.org/wiki/Cat#History` carries a fragment (which
`urlparse` strips before the path test); both are accepted. -/
theorem C3_counterexample :
    is_valid_wiki_url "http://evilwikipedia.org/wiki/Cat" = Except.ok true ∧
    is_valid_wiki_url "https://en.wikipedia.org/wiki/Cat#History" = Except.ok true :=
  ⟨rfl, rfl⟩

/-- C3 (amended): `is_valid_wiki_url` returns false for the empty string; for
every URL that parses with a scheme other than http/https; for every URL that
parses with a host that does not end with the string "wikipedia.org"; and for
every URL that parses with a colon in its path component.  (Hosts merely
ending in "wikipedia.org" are accepted, and fragments are stripped by parsing
before the path test.) -/
theorem C3_amended_validator_false_cases :
    is_valid_wiki_url "" = Except.ok false ∧
    (∀ s p, urlparseE s = Except.ok p → p.scheme ≠ "http" → p.scheme ≠ "https" →
      is_valid_wiki_url s = Except.ok false) ∧
    (∀ s p, urlparseE s = Except.ok p → endswith p.netloc "wikipedia.org" = false →
      is_valid_wiki_url s = Except.ok false) ∧
    (∀ s p, urlparseE s = Except.ok p → ':' ∈ p.path.data →
      is_valid_wiki_url s = Except.ok false) :=
  ⟨rfl, validator_scheme_false, validator_netloc_false, validator_colon_false⟩

theorem C3_witness :
    is_valid_wiki_url "ftp://en.wikipedia.org/wiki/Cat" = Except.ok false ∧
    is_valid_wiki_url "https://example.com/wiki/Cat" = Except.ok false ∧
    is_valid_wiki_url "https://en.wikipedia.org/wiki/File:Cat.jpg" = Except.ok false := by
  refine ⟨?_, ?_, ?_⟩
  · exact C3_amended_validator_false_cases.2.1 "ftp://en.wikipedia.org/wiki/Cat"
      ⟨"ftp", "en.wikipedia.org", "/wiki/Cat", "", "", ""⟩ rfl (by decide) (by decide)
  · exact C3_amended_validator_false_cases.2.2.1 "https://example.com/wiki/Cat"
      ⟨"https", "example.com", "/wiki/Cat", "", "", ""⟩ rfl rfl
  · exact C3_amended_validator_false_cases.2.2.2 "https://en.wikipedia.org/wiki/File:Cat.jpg"
      ⟨"https", "en.wikipedia.org", "/wiki/File:Cat.jpg", "", "", ""⟩ rfl (by decide)

/-- C4: the claim says `is_valid_wiki_url` never throws, but the code has no
try/except around `urlparse`, which raises `ValueError("Invalid IPv6 URL")`
on the input "http://[" (a mismatched bracket in the authority); the
exception escapes the validator. -/
theorem C4_validator_raises :
    is_valid_wiki_url "http://[" = Except.error "Invalid IPv6 URL" := rfl

/-- C5 counterexample: the claim "the returned list has no duplicate entries"
is false.  Deduplication is performed on the raw hrefs before `urljoin`, so
the two distinct hrefs `/wiki/Cat` and `/wiki/./Cat` (dot segment) both pass
the seen-set and resolve to the same absolute URL, which appears twice. -/
theorem C5_counterexample :
    extract_wiki_links ["/wiki/Cat", "/wiki/./Cat"] =
      ["https://en.wikipedia.org/wiki/Cat", "https://en.wikipedia.org/wiki/Cat"] ∧
    ¬(extract_wiki_links ["/wiki/Cat", "/wiki/./Cat"]).Nodup := by
  refine ⟨rfl, ?_⟩
  intro h
  rw [(rfl : extract_wiki_links ["/wiki/Cat", "/wiki/./Cat"] =
      ["https://en.wikipedia.org/wiki/Cat", "https://en.wikipedia.org/wiki/Cat"])] at h
  exact (List.nodup_cons.mp h).1 (List.mem_singleton.mpr rfl)

/-- C5 (amended): for every input, `extract_wiki_links` keeps a list of raw
hrefs with no duplicates, in first-seen document order (a sublist of the
input), all matching `WIKI_PATH_RE`, capped at 10 (and exhaustive when the
cap is not reached); the returned value is the pointwise `urljoin` of this
list — so the returned absolute URLs may repeat when distinct hrefs resolve
to the same URL. -/
theorem C5_amended_extract_contract (hrefs : List String) :
    ∃ kept : List String,
      extract_wiki_links hrefs = kept.map urljoin_wiki ∧
      List.Sublist kept hrefs ∧
      kept.Nodup ∧
      (∀ h ∈ kept, WIKI_PATH_RE_match h = true) ∧
      kept.length ≤ 10 ∧
      (kept.length < 10 → ∀ h ∈ hrefs, WIKI_PATH_RE_match h = true → h ∈ kept) := by
  obtain ⟨kept, h1, h2, h3, h4, h5, h6⟩ := extract_wiki_links_spec hrefs
  exact ⟨kept, h1, h2, h4, h3, h5, h6⟩

theorem C5_witness :
    ∃ kept : List String,
      extract_wiki_links ["/wiki/Mouse"] = kept.map urljoin_wiki ∧
      List.Sublist kept ["/wiki/Mouse"] ∧
      kept.Nodup ∧
      (∀ h ∈ kept, WIKI_PATH_RE_match h = true) ∧
      kept.length ≤ 10 ∧
      (kept.length < 10 → ∀ h ∈ ["/wiki/Mouse"], WIKI_PATH_RE_match h = true → h ∈ kept) :=
  C5_amended_extract_contract ["/wiki/Mouse"]

/-- C6: the crawl result is in breadth-first discovery order.  The
instrumented run assigns to each recorded link its BFS level (links found
while processing a level-L page are recorded at level L+1, by construction of
`addLinksL`); the recorded levels are nondecreasing along the result, the
seed is first at level 0, and no recorded level exceeds the requested depth. -/
theorem C6_bfs_order (web : String → Option (List String)) (seed : String) (depth : Nat)
    (r : List String) (h : crawl web seed depth = some r) :
    ∃ t, crawlRun web seed depth = some t ∧ r = t.1.map Prod.fst ∧
      (t.1.map Prod.snd).Pairwise (· ≤ ·) ∧
      t.1.head? = some (seed, 0) ∧
      ∀ e ∈ t.1, e.2 ≤ depth := by
  obtain ⟨t, ht, hr⟩ := crawlRun_of_crawl web seed depth r h
  refine ⟨t, ht, hr, ?_, ?_, ?_⟩
  · exact crawlRunLoop_sorted web depth (crawlFuel depth) [(seed, 0)] [seed]
      [(seed, 0)] [] [] t (by simp) (by simp) (by simp) (by simp) ht
  · have hh := crawlRunLoop_head web depth (crawlFuel depth) [(seed, 0)] [seed]
      [(seed, 0)] [] [] t ht (by simp)
    simpa using hh
  · refine (crawlRunLoop_levels web depth (crawlFuel depth) [(seed, 0)] [seed]
      [(seed, 0)] [] [] t ?_ ?_ (by simp) ht).1
    · intro e he
      rcases List.mem_singleton.mp he with rfl
      exact Nat.zero_le _
    · intro e he
      rcases List.mem_singleton.mp he with rfl
      exact Nat.zero_le _

theorem C6_witness :
    ∃ t, crawlRun (fun _ => none) "https://en.wikipedia.org/wiki/A6" 2 = some t ∧
      (["https://en.wikipedia.org/wiki/A6"] : List String) = t.1.map Prod.fst ∧
      (t.1.map Prod.snd).Pairwise (· ≤ ·) ∧
      t.1.head? = some ("https://en.wikipedia.org/wiki/A6", 0) ∧
      ∀ e ∈ t.1, e.2 ≤ 2 :=
  C6_bfs_order (fun _ => none) "https://en.wikipedia.org/wiki/A6" 2
    ["https://en.wikipedia.org/wiki/A6"] rfl

/-- C7: a frontier entry dequeued at level = depth is never fetched: every
entry in the fetch log has level strictly below the requested depth, while
recorded links may reach level = depth. -/
theorem C7_no_fetch_at_depth (web : String → Option (List String)) (seed : String)
    (depth : Nat) (t : List (String × Nat) × List (String × Nat) × List String)
    (h : crawlRun web seed depth = some t) :
    (∀ e ∈ t.2.1, e.2 < depth) ∧ (∀ e ∈ t.1, e.2 ≤ depth) ∧
    crawl web seed depth = some (t.1.map Prod.fst) := by
  have hl := crawlRunLoop_levels web depth (crawlFuel depth) [(seed, 0)] [seed]
    [(seed, 0)] [] [] t ?_ ?_ (by simp) h
  · refine ⟨hl.2, hl.1, ?_⟩
    rw [crawl_eq_crawlRun, h]
    rfl
  · intro e he
    rcases List.mem_singleton.mp he with rfl
    exact Nat.zero_le _
  · intro e he
    rcases List.mem_singleton.mp he with rfl
    exact Nat.zero_le _

theorem C7_witness :
    ((("https://en.wikipedia.org/wiki/A7", 0) : String × Nat)).2 < 1 :=
  (C7_no_fetch_at_depth (fun _ => some []) "https://en.wikipedia.org/wiki/A7" 1
      ([("https://en.wikipedia.org/wiki/A7", 0)],
       [("https://en.wikipedia.org/wiki/A7", 0)], []) rfl).1
    ("https://en.wikipedia.org/wiki/A7", 0) (by simp)

/-- C8: a fetch failure never aborts the crawl: when the fetch of the
dequeued URL fails, the loop records the warning, contributes no children
(queue, visited and result are untouched), and continues with the remaining
frontier; in particular a crawl in which every fetch fails still completes,
returning just the seed. -/
theorem C8_fetch_failure_nonfatal :
    (∀ (web : String → Option (List String)) (depth fuel : Nat) (url : String) (lvl : Nat)
        (rest : List (String × Nat)) (visited : List String)
        (acc fetched : List (String × Nat)) (warns : List String),
      lvl ≠ depth → web url = none →
      crawlRunLoop web depth (fuel + 1) ((url, lvl) :: rest) visited acc fetched warns =
        crawlRunLoop web depth fuel rest visited acc (fetched ++ [(url, lvl)])
          (warns ++ [url])) ∧
    crawl (fun _ => none) "https://en.wikipedia.org/wiki/Dog" 3 =
      some ["https://en.wikipedia.org/wiki/Dog"] := by
  refine ⟨?_, rfl⟩
  intro web depth fuel url lvl rest visited acc fetched warns hl hw
  simp only [crawlRunLoop, if_neg hl, hw]

theorem C8_witness :
    crawlRunLoop (fun _ => none) 2 1 [("https://en.wikipedia.org/wiki/A8", 0)]
        ["https://en.wikipedia.org/wiki/A8"] [("https://en.wikipedia.org/wiki/A8", 0)] [] [] =
      crawlRunLoop (fun _ => none) 2 0 [] ["https://en.wikipedia.org/wiki/A8"]
        [("https://en.wikipedia.org/wiki/A8", 0)]
        ([] ++ [("https://en.wikipedia.org/wiki/A8", 0)])
        ([] ++ ["https://en.wikipedia.org/wiki/A8"]) :=
  C8_fetch_failure_nonfatal.1 (fun _ => none) 2 0 "https://en.wikipedia.org/wiki/A8" 0 []
    ["https://en.wikipedia.org/wiki/A8"] [("https://en.wikipedia.org/wiki/A8", 0)] [] []
    (by decide) rfl

/-- C9: for every web, seed and depth in [1,3] the crawl terminates with a
result: each URL is enqueued at most once per discovery, the per-page fan-out
is capped at 10 and expansion stops at level = depth, so `crawlFuel depth`
iterations suffice and the loop exits with the frontier empty. -/
theorem C9_crawl_terminates (web : String → Option (List String)) (seed : String)
    (depth : Nat) (_h1 : 1 ≤ depth) (_h2 : depth ≤ 3) :
    ∃ r, crawl web seed depth = some r :=
  crawl_some web seed depth

theorem C9_witness :
    1 ≤ 2 ∧ 2 ≤ 3 ∧ ∃ r, crawl (fun _ => none) "https://en.wikipedia.org/wiki/A9" 2 = some r :=
  ⟨by decide, by decide,
    C9_crawl_terminates (fun _ => none) "https://en.wikipedia.org/wiki/A9" 2
      (by decide) (by decide)⟩

/-- C10: an href that is already an absolute http(s) URL never matches
`WIKI_PATH_RE` (the pattern only accepts site-relative `/wiki/...` paths),
and a page whose hrefs are all absolute URLs contributes no extracted links —
even when those URLs denote in-scope articles. -/
theorem C10_absolute_href_never_kept :
    (∀ href : String,
      startswith href "http://" = true ∨ startswith href "https://" = true →
      WIKI_PATH_RE_match href = false) ∧
    (∀ hrefs : List String,
      (∀ x ∈ hrefs, startswith x "http://" = true ∨ startswith x "https://" = true) →
      extract_wiki_links hrefs = []) :=
  ⟨wikiPathMatch_absolute, extract_wiki_links_absolute⟩

theorem C10_witness :
    WIKI_PATH_RE_match "https://en.wikipedia.org/wiki/X" = false ∧
    extract_wiki_links ["https://en.wikipedia.org/wiki/X"] = [] := by
  refine ⟨C10_absolute_href_never_kept.1 "https://en.wikipedia.org/wiki/X" (Or.inr rfl),
    C10_absolute_href_never_kept.2 ["https://en.wikipedia.org/wiki/X"] ?_⟩
  intro x hx
  rcases List.mem_singleton.mp hx with rfl
  exact Or.inr rfl

